import Mathlib

/-! The dose field of the radiotherapy scene (`src/App.js`)

A shallow embedding of the `DoseDistribution` effect (the triple loop that fills the
64×64×64 byte volume) and of the little React state that surrounds it
(`AdvancedRadiotherapySimulation`: the tumor position object, the beam list, the beam
intensity, the dat.GUI controllers).

Numbers.  JavaScript numbers are read as elements of a linearly ordered field with a floor
function; `Math.sqrt`, the one primitive of the loop that is not a field operation, is
passed in as `sqrt`.  The definitions are ordinary computable functions of that field (they
run as they stand over `ℚ`); the theorems are stated for `ℝ` with `Real.sqrt`, that is, for
exact arithmetic.

Doubles.  The two falloff terms are embedded a second time in `Binary64`, with the
rounding of IEEE 754 double precision after every operation, as the engine computes them.
That is where the terms in exact arithmetic and the terms of the running code part ways.

Objects.  A `THREE.Vector3` held in React state is a mutable object: its identity (what a
dependency array compares) and its field values are kept apart in `App`.
-/

namespace RadiotherapySim

/-! ## Definitions -/

/-- The three number fields of a `THREE.Vector3`. -/
@[ext]
structure Vector3 (α : Type) where
  x : α
  y : α
  z : α

/-- The three channels of a `THREE.Color`. -/
@[ext]
structure Color (α : Type) where
  r : α
  g : α
  b : α

variable {α : Type} [LinearOrderedField α]

/-- Method `Vector3.multiplyScalar(s)` of three.js: every field times `s`. -/
def Vector3.multiplyScalar (v : Vector3 α) (s : α) : Vector3 α :=
  ⟨v.x * s, v.y * s, v.z * s⟩

/-- Method `Vector3.subScalar(s)` of three.js: `s` taken off every field. -/
def Vector3.subScalar (v : Vector3 α) (s : α) : Vector3 α :=
  ⟨v.x - s, v.y - s, v.z - s⟩

/-- Method `Vector3.negate()` of three.js: the point reflection through the origin. -/
def Vector3.negate (v : Vector3 α) : Vector3 α :=
  ⟨-v.x, -v.y, -v.z⟩

/-- Method `Vector3.distanceToSquared(v)` of three.js. -/
def Vector3.distanceToSquared (p v : Vector3 α) : α :=
  let dx := p.x - v.x
  let dy := p.y - v.y
  let dz := p.z - v.z
  dx * dx + dy * dy + dz * dz

/-- Method `Vector3.distanceTo(v)` of three.js: `Math.sqrt(this.distanceToSquared(v))`. -/
def Vector3.distanceTo (sqrt : α → α) (p v : Vector3 α) : α :=
  sqrt (p.distanceToSquared v)

/-- Method `Color.multiplyScalar(s)` of three.js: every channel times `s`. -/
def Color.multiplyScalar (c : Color α) (s : α) : Color α :=
  ⟨c.r * s, c.g * s, c.b * s⟩

/-- The colour `RadiationBeam` gives its arrow (App.js line 60):
`new THREE.Color(1, 1, 0).multiplyScalar(intensity)`. -/
def RadiationBeam.color (intensity : α) : Color α :=
  (Color.mk 1 1 0).multiplyScalar intensity

namespace DoseDistribution

/-- Line 75: `const size = 64`. -/
def size : Nat := 64

/-- Line 81: `const index = i * size * size + j * size + k`. -/
def index (i j k : Nat) : Nat := i * size * size + j * size + k

/-- Line 84: `new THREE.Vector3(i, j, k).multiplyScalar(2 / size).subScalar(1)`. -/
def point (i j k : Nat) : Vector3 α :=
  ((Vector3.mk (i : α) (j : α) (k : α)).multiplyScalar (2 / (size : α))).subScalar 1

/-- The right-hand side of line 85: `1 / (1 + point.distanceTo(tumorPosition) * 10)`. -/
def tumorTerm (sqrt : α → α) (point tumorPosition : Vector3 α) : α :=
  1 / (1 + point.distanceTo sqrt tumorPosition * 10)

/-- The right-hand side of line 87: `0.5 / (1 + point.distanceTo(beamPos) * 5)`. -/
def beamTerm (sqrt : α → α) (point beamPos : Vector3 α) : α :=
  0.5 / (1 + point.distanceTo sqrt beamPos * 5)

/-- Lines 83 and 85 to 88: `dose` starts at 0, takes the tumor term, then one term for
every beam in list order (`forEach`). -/
def dose (sqrt : α → α) (tumorPosition : Vector3 α) (beamPositions : List (Vector3 α))
    (point : Vector3 α) : α :=
  beamPositions.foldl (fun dose beamPos => dose + beamTerm sqrt point beamPos)
    (0 + tumorTerm sqrt point tumorPosition)

/-- The right-hand side of line 89: `Math.min(255, Math.floor(dose * 255))`. -/
def quantize [FloorRing α] (dose : α) : Int :=
  min 255 ⌊dose * 255⌋

/-- The value line 89 computes for the cell `(i, j, k)`. -/
def sample [FloorRing α] (sqrt : α → α) (tumorPosition : Vector3 α)
    (beamPositions : List (Vector3 α)) (i j k : Nat) : Int :=
  quantize (dose sqrt tumorPosition beamPositions (point i j k))

/-- What a `Uint8Array` keeps of an integer written to it: the value modulo 256. -/
def toUint8 (v : Int) : Nat :=
  (v % 256).toNat

/-- The three nested `for` loops of lines 78 to 80, with the loop body and the state it
threads left open. -/
def forEachCell {β : Type} (body : β → Nat → Nat → Nat → β) (init : β) : β :=
  (List.range size).foldl
    (fun acc i =>
      (List.range size).foldl
        (fun acc j => (List.range size).foldl (fun acc k => body acc i j k) acc)
        acc)
    init

/-- The cells `(i, j, k)` in the order the loop visits them. -/
def cells : List (Nat × Nat × Nat) :=
  (List.range size).flatMap fun i =>
    (List.range size).flatMap fun j => (List.range size).map fun k => (i, j, k)

/-- The indices the loop writes to, in the order it writes them. -/
def writes : List Nat :=
  forEachCell (fun log i j k => log ++ [index i j k]) []

/-- Lines 76 to 92: the zero-filled `Uint8Array` of `size * size * size` bytes after the
loop has run.  A write outside a typed array is dropped, as `List.set` drops it. -/
def data [FloorRing α] (sqrt : α → α) (tumorPosition : Vector3 α)
    (beamPositions : List (Vector3 α)) : List Nat :=
  forEachCell
    (fun data i j k =>
      data.set (index i j k) (toUint8 (sample sqrt tumorPosition beamPositions i j k)))
    (List.replicate (size * size * size) 0)

/-- The quantization as the specification words it: clamp the accumulated value to at most
1, then scale to the 8-bit range and take the integer part. -/
def clampThenQuantize [FloorRing α] (dose : α) : Int :=
  ⌊255 * min 1 dose⌋

end DoseDistribution

namespace Binary64

/-- Rounding to the nearest integer, a tie going to the even one. -/
def roundHalfEven [FloorRing α] (x : α) : Int :=
  if x - ⌊x⌋ < 1 / 2 then ⌊x⌋
  else if 1 / 2 < x - ⌊x⌋ then ⌊x⌋ + 1
  else if ⌊x⌋ % 2 = 0 then ⌊x⌋
  else ⌊x⌋ + 1

/-- The binary exponent of the binade of `x`: the greatest `e` with `2 ^ e ≤ |x|`, and
`-1022`, the exponent of the subnormal doubles, for anything smaller. -/
def exponent [FloorRing α] (x : α) : Int :=
  max (Int.log 2 |x|) (-1022)

/-- The distance between neighbouring doubles in the binade of `x` (52 fraction bits). -/
def ulp [FloorRing α] (x : α) : α :=
  (2 : α) ^ (exponent x - 52)

/-- The double an operation returns when its exact result is `x`: the nearest multiple of
`ulp x`, a tie going to the even multiple (the rounding mode of JavaScript numbers).  Results
of magnitude `2 ^ 1024` and more, which a double turns into an infinity, are not covered;
for points of the cube `[-1, 1]³` the terms below stay under 2048. -/
def rnd [FloorRing α] (x : α) : α :=
  (roundHalfEven (x / ulp x) : α) * ulp x

/-- Method `Vector3.distanceToSquared(v)` of three.js on doubles: the three differences,
the three squares and the two sums, each rounded. -/
def distanceToSquared [FloorRing α] (p v : Vector3 α) : α :=
  let dx := rnd (p.x - v.x)
  let dy := rnd (p.y - v.y)
  let dz := rnd (p.z - v.z)
  rnd (rnd (rnd (dx * dx) + rnd (dy * dy)) + rnd (dz * dz))

/-- Method `Vector3.distanceTo(v)` of three.js on doubles: `Math.sqrt` returns the rounded
square root. -/
def distanceTo [FloorRing α] (sqrt : α → α) (p v : Vector3 α) : α :=
  rnd (sqrt (distanceToSquared p v))

/-- The denominator of line 85 on doubles: `1 + point.distanceTo(tumorPosition) * 10`. -/
def tumorDenominator [FloorRing α] (sqrt : α → α) (point tumorPosition : Vector3 α) : α :=
  rnd (1 + rnd (distanceTo sqrt point tumorPosition * 10))

/-- The denominator of line 87 on doubles: `1 + point.distanceTo(beamPos) * 5`. -/
def beamDenominator [FloorRing α] (sqrt : α → α) (point beamPos : Vector3 α) : α :=
  rnd (1 + rnd (distanceTo sqrt point beamPos * 5))

/-- The right-hand side of line 85 on doubles:
`1 / (1 + point.distanceTo(tumorPosition) * 10)`. -/
def tumorTerm [FloorRing α] (sqrt : α → α) (point tumorPosition : Vector3 α) : α :=
  rnd (1 / tumorDenominator sqrt point tumorPosition)

/-- The right-hand side of line 87 on doubles:
`0.5 / (1 + point.distanceTo(beamPos) * 5)`. -/
def beamTerm [FloorRing α] (sqrt : α → α) (point beamPos : Vector3 α) : α :=
  rnd (0.5 / beamDenominator sqrt point beamPos)

end Binary64

/-- The mounted application.  `tumorPosition` and `beamPositions` are the current contents
of the two objects React state holds, `tumorPositionId` and `beamPositionsId` the identities
of those objects; `deps` is what the dependency array of the `DoseDistribution` effect held
when the effect last ran (`none` before the first run) and `data` the bytes of the texture
in use. -/
structure App (α : Type) where
  tumorPosition : Vector3 α
  tumorPositionId : Nat
  beamPositions : List (Vector3 α)
  beamPositionsId : Nat
  beamIntensity : α
  deps : Option (Nat × Nat)
  data : List Nat

/-- What the user can do to the mounted application. -/
inductive Event (α : Type) where
  /-- The controller of line 148 writes the field `x` of the tumor position object. -/
  | tumorX (v : α)
  /-- The controller of line 149 writes the field `y`. -/
  | tumorY (v : α)
  /-- The controller of line 150 writes the field `z`. -/
  | tumorZ (v : α)
  /-- The translate gizmo of line 173: it is handed the tumor position object and no
  callback, so it can only write that object. -/
  | gizmo (v : Vector3 α)
  /-- The controller of line 153 calls `setBeamIntensity`. -/
  | intensity (v : α)
  /-- React renders the component again, whatever the cause. -/
  | render

/-- The `useEffect` of `DoseDistribution` (lines 73 to 127) at the end of a render: the
body runs when an entry of `[tumorPosition, beamPositions]` is not the object it was at
the last run, and on the first render. -/
def App.runEffect [FloorRing α] (sqrt : α → α) (s : App α) : App α :=
  if s.deps = some (s.tumorPositionId, s.beamPositionsId) then s
  else
    { s with
      deps := some (s.tumorPositionId, s.beamPositionsId)
      data := DoseDistribution.data sqrt s.tumorPosition s.beamPositions }

/-- Lines 138 to 143 and the first render: the three `useState` initial values, then the
effect. -/
def App.init [FloorRing α] (sqrt : α → α) : App α :=
  App.runEffect sqrt
    { tumorPosition := ⟨0, 0, 0⟩
      tumorPositionId := 0
      beamPositions := [⟨1, 1, 1⟩, ⟨-1, -1, -1⟩]
      beamPositionsId := 1
      beamIntensity := 1
      deps := none
      data := [] }

/-- One event.  The tumor controllers and the gizmo assign to fields of the object in
place: no state setter is called (`setTumorPosition` and `setBeamPositions` are never
called in the file), so the identities stay and nothing renders.  `setBeamIntensity`
stores the value and renders. -/
def App.step [FloorRing α] (sqrt : α → α) (s : App α) : Event α → App α
  | .tumorX v => { s with tumorPosition := { s.tumorPosition with x := v } }
  | .tumorY v => { s with tumorPosition := { s.tumorPosition with y := v } }
  | .tumorZ v => { s with tumorPosition := { s.tumorPosition with z := v } }
  | .gizmo v => { s with tumorPosition := v }
  | .intensity v => App.runEffect sqrt { s with beamIntensity := v }
  | .render => App.runEffect sqrt s

/-- The application after a sequence of events, from the mounted state. -/
def App.run [FloorRing α] (sqrt : α → α) (es : List (Event α)) : App α :=
  es.foldl (App.step sqrt) (App.init sqrt)

/-- The colour of every beam arrow drawn for a state (line 167 hands `beamIntensity` to
`RadiationBeam`). -/
def App.beamColor (s : App α) : Color α :=
  RadiationBeam.color s.beamIntensity

/-! ## The loop and the array -/

section Loop

open DoseDistribution

theorem foldl_flatMap_eq {β γ δ : Type} (l : List γ) (g : γ → List δ) (f : β → δ → β)
    (b : β) :
    (l.flatMap g).foldl f b = l.foldl (fun acc a => (g a).foldl f acc) b := by
  induction l generalizing b with
  | nil => rfl
  | cons a l ih => simp [List.flatMap_cons, List.foldl_append, ih]

theorem nested_foldl_eq {β : Type} (n : Nat) (body : β → Nat → Nat → Nat → β) (init : β) :
    (List.range n).foldl
        (fun acc i =>
          (List.range n).foldl
            (fun acc j => (List.range n).foldl (fun acc k => body acc i j k) acc) acc)
        init
      = ((List.range n).flatMap fun i =>
          (List.range n).flatMap fun j => (List.range n).map fun k => (i, j, k)).foldl
        (fun acc c => body acc c.1 c.2.1 c.2.2) init := by
  rw [foldl_flatMap_eq]
  congr 1
  funext acc i
  rw [foldl_flatMap_eq]
  congr 1
  funext acc j
  rw [List.foldl_map]

/-- The nested loops are one pass over `cells`. -/
theorem forEachCell_eq_foldl {β : Type} (body : β → Nat → Nat → Nat → β) (init : β) :
    forEachCell body init = cells.foldl (fun acc c => body acc c.1 c.2.1 c.2.2) init :=
  nested_foldl_eq size body init

theorem mem_cells (i j k : Nat) : (i, j, k) ∈ cells ↔ i < size ∧ j < size ∧ k < size := by
  simp only [cells, List.mem_flatMap, List.mem_map, List.mem_range, Prod.mk.injEq]
  constructor
  · rintro ⟨a, ha, b, hb, c, hc, rfl, rfl, rfl⟩
    exact ⟨ha, hb, hc⟩
  · rintro ⟨hi, hj, hk⟩
    exact ⟨i, hi, j, hj, k, hk, rfl, rfl, rfl⟩

theorem flatMap_range_blocks (b s m : Nat) :
    (List.range m).flatMap (fun j => List.range' (b + j * s) s) = List.range' b (m * s) := by
  induction m with
  | zero => simp
  | succ m ih =>
    rw [List.range_succ, List.flatMap_append, ih, List.flatMap_singleton]
    have h := List.range'_append b (m * s) s 1
    rw [Nat.one_mul] at h
    rw [h]
    congr 1
    ring

theorem cells_map_index_gen (n : Nat) :
    (((List.range n).flatMap fun i =>
        (List.range n).flatMap fun j => (List.range n).map fun k => (i, j, k)).map
      fun c : Nat × Nat × Nat => c.1 * n * n + c.2.1 * n + c.2.2) = List.range (n * n * n) := by
  rw [List.map_flatMap]
  have inner : ∀ i : Nat,
      List.map (fun c : Nat × Nat × Nat => c.1 * n * n + c.2.1 * n + c.2.2)
        ((List.range n).flatMap fun j => (List.range n).map fun k => (i, j, k))
        = List.range' (0 + i * (n * n)) (n * n) := by
    intro i
    rw [List.map_flatMap]
    have row : ∀ j : Nat,
        List.map (fun c : Nat × Nat × Nat => c.1 * n * n + c.2.1 * n + c.2.2)
          ((List.range n).map fun k => (i, j, k)) = List.range' (i * (n * n) + j * n) n := by
      intro j
      rw [List.map_map, List.range'_eq_map_range]
      apply List.map_congr_left
      intro k _
      simp only [Function.comp]
      ring
    simp only [row]
    rw [flatMap_range_blocks, Nat.zero_add]
  simp only [inner]
  rw [flatMap_range_blocks, List.range_eq_range']
  congr 1
  ring

/-- The loop visits the indices `0, 1, …, size³ - 1`, in this order. -/
theorem cells_map_index :
    cells.map (fun c => index c.1 c.2.1 c.2.2) = List.range (size * size * size) :=
  cells_map_index_gen size

theorem foldl_log {γ : Type} (f : γ → Nat) (l : List γ) (init : List Nat) :
    l.foldl (fun log c => log ++ [f c]) init = init ++ l.map f := by
  induction l generalizing init with
  | nil => simp
  | cons c l ih => simp [ih]

theorem writes_eq_range : writes = List.range (size * size * size) := by
  unfold writes
  rw [forEachCell_eq_foldl, foldl_log, List.nil_append]
  exact cells_map_index

theorem foldl_set_length {γ V : Type} (idx : γ → Nat) (val : γ → V) (cs : List γ)
    (d : List V) :
    (cs.foldl (fun d c => d.set (idx c) (val c)) d).length = d.length := by
  induction cs generalizing d with
  | nil => rfl
  | cons c cs ih => simp [ih]

theorem foldl_set_getElem?_of_not_mem {γ V : Type} (idx : γ → Nat) (val : γ → V)
    (cs : List γ) (d : List V) (m : Nat) (hm : m ∉ cs.map idx) :
    (cs.foldl (fun d c => d.set (idx c) (val c)) d)[m]? = d[m]? := by
  induction cs generalizing d with
  | nil => rfl
  | cons c cs ih =>
    simp only [List.map_cons, List.mem_cons, not_or] at hm
    rw [List.foldl_cons, ih _ hm.2, List.getElem?_set_ne (Ne.symm hm.1)]

theorem foldl_set_getElem? {γ V : Type} (idx : γ → Nat) (val : γ → V) (cs : List γ)
    (d : List V) (c : γ) (hc : c ∈ cs) (hnd : (cs.map idx).Nodup) (hlt : idx c < d.length) :
    (cs.foldl (fun d c => d.set (idx c) (val c)) d)[idx c]? = some (val c) := by
  induction cs generalizing d with
  | nil => simp at hc
  | cons c0 cs ih =>
    rw [List.map_cons, List.nodup_cons] at hnd
    rw [List.foldl_cons]
    by_cases h : c ∈ cs
    · exact ih _ h hnd.2 (by rw [List.length_set]; exact hlt)
    · have hc0 : c = c0 := by
        rcases List.mem_cons.mp hc with h0 | h0
        · exact h0
        · exact absurd h0 h
      subst hc0
      rw [foldl_set_getElem?_of_not_mem idx val cs _ _ hnd.1, List.getElem?_set_self hlt]

theorem index_lt (i j k : Nat) (hi : i < size) (hj : j < size) (hk : k < size) :
    index i j k < size * size * size := by
  unfold index size at *
  omega

theorem data_length [FloorRing α] (sqrt : α → α) (t : Vector3 α) (bs : List (Vector3 α)) :
    (data sqrt t bs).length = size * size * size := by
  unfold data
  rw [forEachCell_eq_foldl]
  rw [foldl_set_length (fun c : Nat × Nat × Nat => index c.1 c.2.1 c.2.2)
    (fun c => toUint8 (sample sqrt t bs c.1 c.2.1 c.2.2))]
  simp

/-- After the loop, the byte at `index i j k` is the sample of the cell `(i, j, k)`. -/
theorem data_getElem? [FloorRing α] (sqrt : α → α) (t : Vector3 α) (bs : List (Vector3 α))
    (i j k : Nat) (hi : i < size) (hj : j < size) (hk : k < size) :
    (data sqrt t bs)[index i j k]? = some (toUint8 (sample sqrt t bs i j k)) := by
  unfold data
  rw [forEachCell_eq_foldl]
  have h := foldl_set_getElem? (fun c : Nat × Nat × Nat => index c.1 c.2.1 c.2.2)
    (fun c => toUint8 (sample sqrt t bs c.1 c.2.1 c.2.2)) cells
    (List.replicate (size * size * size) 0) (i, j, k) ((mem_cells i j k).mpr ⟨hi, hj, hk⟩)
    (by rw [cells_map_index]; exact List.nodup_range _)
    (by rw [List.length_replicate]; exact index_lt i j k hi hj hk)
  exact h

end Loop

/-! ## The falloff terms and the accumulated dose -/

section Dose

open DoseDistribution

theorem distanceTo_nonneg (p v : Vector3 ℝ) : 0 ≤ p.distanceTo Real.sqrt v :=
  Real.sqrt_nonneg _

theorem distanceToSquared_nonneg (p v : Vector3 α) : 0 ≤ p.distanceToSquared v := by
  unfold Vector3.distanceToSquared
  exact add_nonneg (add_nonneg (mul_self_nonneg _) (mul_self_nonneg _)) (mul_self_nonneg _)

theorem tumorTerm_pos (p t : Vector3 ℝ) : 0 < tumorTerm Real.sqrt p t := by
  unfold tumorTerm
  have h := distanceTo_nonneg p t
  positivity

theorem beamTerm_nonneg (p b : Vector3 ℝ) : 0 ≤ beamTerm Real.sqrt p b := by
  unfold beamTerm
  have h := distanceTo_nonneg p b
  positivity

theorem foldl_add_eq_sum {γ : Type} (f : γ → α) (l : List γ) (a : α) :
    l.foldl (fun acc c => acc + f c) a = a + (l.map f).sum := by
  induction l generalizing a with
  | nil => simp
  | cons c l ih => simp [ih, add_assoc]

/-- The loop over the beams adds up: the dose is the tumor term plus the sum of the beam
terms. -/
theorem dose_eq_sum (sqrt : α → α) (t : Vector3 α) (bs : List (Vector3 α)) (p : Vector3 α) :
    dose sqrt t bs p = tumorTerm sqrt p t + (bs.map (beamTerm sqrt p)).sum := by
  unfold dose
  rw [foldl_add_eq_sum, zero_add]

theorem beamTerms_sum_nonneg (p : Vector3 ℝ) (bs : List (Vector3 ℝ)) :
    0 ≤ (bs.map (beamTerm Real.sqrt p)).sum := by
  apply List.sum_nonneg
  intro x hx
  rcases List.mem_map.mp hx with ⟨b, _, rfl⟩
  exact beamTerm_nonneg p b

theorem dose_pos (t : Vector3 ℝ) (bs : List (Vector3 ℝ)) (p : Vector3 ℝ) :
    0 < dose Real.sqrt t bs p := by
  rw [dose_eq_sum]
  have h1 := tumorTerm_pos p t
  have h2 := beamTerms_sum_nonneg p bs
  linarith

theorem quantize_nonneg [FloorRing α] (d : α) (hd : 0 ≤ d) : 0 ≤ quantize d := by
  unfold quantize
  apply le_min (by norm_num)
  exact Int.floor_nonneg.mpr (by positivity)

theorem quantize_le [FloorRing α] (d : α) : quantize d ≤ 255 :=
  min_le_left _ _

theorem quantize_mono [FloorRing α] {d e : α} (h : d ≤ e) : quantize d ≤ quantize e := by
  unfold quantize
  apply min_le_min le_rfl
  apply Int.floor_mono
  exact mul_le_mul_of_nonneg_right h (by norm_num)

theorem toUint8_of_byte (v : Int) (h0 : 0 ≤ v) (h1 : v ≤ 255) : (toUint8 v : Int) = v := by
  unfold toUint8
  omega

theorem sqrt_three_bounds : (1.732 : ℝ) < Real.sqrt 3 ∧ Real.sqrt 3 < 1.7321 := by
  constructor
  · apply Real.lt_sqrt_of_sq_lt
    norm_num
  · rw [Real.sqrt_lt' (by norm_num)]
    norm_num

theorem point_zero : (point 0 0 0 : Vector3 ℝ) = ⟨-1, -1, -1⟩ := by
  simp [point, Vector3.multiplyScalar, Vector3.subScalar]

theorem point_mid : (point 32 32 32 : Vector3 ℝ) = ⟨0, 0, 0⟩ := by
  simp [point, Vector3.multiplyScalar, Vector3.subScalar, size]
  norm_num

/-- The sample point of the cell across the centre is the reflected sample point. -/
theorem point_reflect (i j k : Nat) (hi : i ≤ size) (hj : j ≤ size) (hk : k ≤ size) :
    (point (size - i) (size - j) (size - k) : Vector3 ℝ) = (point i j k).negate := by
  unfold size at hi hj hk
  simp only [point, Vector3.multiplyScalar, Vector3.subScalar, Vector3.negate, size]
  rw [Nat.cast_sub hi, Nat.cast_sub hj, Nat.cast_sub hk]
  ext <;> simp <;> ring

/-- With the tumor at the origin and the two beams opposite each other, the dose at a point
and at its reflection are the same. -/
theorem dose_negate (p : Vector3 ℝ) :
    dose Real.sqrt ⟨0, 0, 0⟩ [⟨1, 1, 1⟩, ⟨-1, -1, -1⟩] p.negate
      = dose Real.sqrt ⟨0, 0, 0⟩ [⟨1, 1, 1⟩, ⟨-1, -1, -1⟩] p := by
  have ht : p.negate.distanceToSquared ⟨0, 0, 0⟩ = p.distanceToSquared ⟨0, 0, 0⟩ := by
    simp only [Vector3.distanceToSquared, Vector3.negate]
    ring
  have h1 : p.negate.distanceToSquared ⟨1, 1, 1⟩ = p.distanceToSquared ⟨-1, -1, -1⟩ := by
    simp only [Vector3.distanceToSquared, Vector3.negate]
    ring
  have h2 : p.negate.distanceToSquared ⟨-1, -1, -1⟩ = p.distanceToSquared ⟨1, 1, 1⟩ := by
    simp only [Vector3.distanceToSquared, Vector3.negate]
    ring
  simp only [dose, tumorTerm, beamTerm, Vector3.distanceTo, List.foldl_cons, List.foldl_nil,
    ht, h1, h2]
  ring

end Dose

/-! ## The application state -/

section Application

open DoseDistribution

/-- What never changes once the application is mounted: the identities of the two state
objects, the beam list, the dependency record of the effect, and with them the texture. -/
theorem run_invariant [FloorRing α] (sqrt : α → α) (es : List (Event α)) :
    (App.run sqrt es).tumorPositionId = 0
      ∧ (App.run sqrt es).beamPositionsId = 1
      ∧ (App.run sqrt es).deps = some (0, 1)
      ∧ (App.run sqrt es).beamPositions = [⟨1, 1, 1⟩, ⟨-1, -1, -1⟩]
      ∧ (App.run sqrt es).data = data sqrt ⟨0, 0, 0⟩ [⟨1, 1, 1⟩, ⟨-1, -1, -1⟩] := by
  induction es using List.reverseRecOn with
  | nil => simp [App.run, App.init, App.runEffect]
  | append_singleton es e ih =>
    obtain ⟨h1, h2, h3, h4, h5⟩ := ih
    have hrun : App.run sqrt (es ++ [e]) = App.step sqrt (App.run sqrt es) e := by
      simp [App.run, List.foldl_append]
    rw [hrun]
    cases e <;> simp [App.step, App.runEffect, h1, h2, h3, h4, h5]

end Application

/-! ## Rounding to doubles -/

section Rounding

open Binary64

theorem roundHalfEven_intCast (n : Int) : roundHalfEven (n : ℝ) = n := by
  unfold roundHalfEven
  simp

theorem floor_le_roundHalfEven (a : ℝ) : ⌊a⌋ ≤ roundHalfEven a := by
  unfold roundHalfEven
  split_ifs <;> omega

theorem roundHalfEven_le_floor_succ (a : ℝ) : roundHalfEven a ≤ ⌊a⌋ + 1 := by
  unfold roundHalfEven
  split_ifs <;> omega

theorem roundHalfEven_mono {a b : ℝ} (h : a ≤ b) : roundHalfEven a ≤ roundHalfEven b := by
  have hf : ⌊a⌋ ≤ ⌊b⌋ := Int.floor_mono h
  rcases lt_or_eq_of_le hf with hlt | heq
  · calc roundHalfEven a ≤ ⌊a⌋ + 1 := roundHalfEven_le_floor_succ a
      _ ≤ ⌊b⌋ := hlt
      _ ≤ roundHalfEven b := floor_le_roundHalfEven b
  · have hr : a - ⌊a⌋ ≤ b - ⌊b⌋ := by
      rw [heq]
      linarith
    unfold roundHalfEven
    rw [heq] at hr ⊢
    split_ifs <;> first | omega | linarith

theorem roundHalfEven_sub_le (a : ℝ) : (roundHalfEven a : ℝ) - a ≤ 1 / 2 := by
  have h1 := Int.floor_le a
  have h2 := Int.lt_floor_add_one a
  unfold roundHalfEven
  split_ifs with c1 c2 c3 <;> push_cast <;> linarith

theorem sub_roundHalfEven_le (a : ℝ) : a - (roundHalfEven a : ℝ) ≤ 1 / 2 := by
  have h1 := Int.floor_le a
  have h2 := Int.lt_floor_add_one a
  unfold roundHalfEven
  split_ifs with c1 c2 c3 <;> push_cast <;> linarith

theorem ulp_pos (x : ℝ) : 0 < ulp x := by
  unfold ulp
  positivity

theorem rnd_zero : rnd (0 : ℝ) = 0 := by
  unfold rnd
  rw [zero_div]
  have := roundHalfEven_intCast 0
  simp only [Int.cast_zero] at this
  rw [this]
  simp

theorem log_two_eq {r : ℝ} {e : Int} (hr : 0 < r) (hlo : (2 : ℝ) ^ e ≤ r)
    (hhi : r < (2 : ℝ) ^ (e + 1)) : Int.log 2 r = e := by
  have h2 : (1 : ℕ) < 2 := by norm_num
  apply le_antisymm
  · have := (Int.lt_zpow_iff_log_lt h2 hr (x := e + 1)).mp (by exact_mod_cast hhi)
    omega
  · exact (Int.zpow_le_iff_le_log h2 hr).mp (by exact_mod_cast hlo)

/-- A value that is an integer multiple of the spacing of its binade is not changed. -/
theorem rnd_exact (x : ℝ) (e n : Int) (he : -1022 ≤ e) (hlo : (2 : ℝ) ^ e ≤ |x|)
    (hhi : |x| < (2 : ℝ) ^ (e + 1)) (hx : x = (n : ℝ) * (2 : ℝ) ^ (e - 52)) : rnd x = x := by
  have hpos : 0 < |x| := lt_of_lt_of_le (by positivity) hlo
  have hexp : exponent x = e := by
    unfold exponent
    rw [log_two_eq hpos hlo hhi]
    exact max_eq_left he
  unfold rnd ulp
  rw [hexp]
  have hu : (0 : ℝ) < (2 : ℝ) ^ (e - 52) := by positivity
  have hq : x / (2 : ℝ) ^ (e - 52) = (n : ℝ) := by
    rw [hx]
    field_simp
  rw [hq, roundHalfEven_intCast, ← hx]

theorem rnd_nonneg {x : ℝ} (hx : 0 ≤ x) : 0 ≤ rnd x := by
  unfold rnd
  have hu := ulp_pos x
  have hq : 0 ≤ x / ulp x := div_nonneg hx (le_of_lt hu)
  have hf : (0 : Int) ≤ roundHalfEven (x / ulp x) :=
    le_trans (Int.floor_nonneg.mpr hq) (floor_le_roundHalfEven _)
  have : (0 : ℝ) ≤ (roundHalfEven (x / ulp x) : ℝ) := by exact_mod_cast hf
  positivity

theorem pow53_mul_ulp (e : Int) : ((2 ^ 53 : Int) : ℝ) * (2 : ℝ) ^ (e - 52) = (2 : ℝ) ^ (e + 1) := by
  have h : ((2 ^ 53 : Int) : ℝ) = (2 : ℝ) ^ (53 : Int) := by norm_num
  rw [h, ← zpow_add₀ (by norm_num : (2 : ℝ) ≠ 0)]
  congr 1
  ring

theorem pow52_mul_ulp (e : Int) : ((2 ^ 52 : Int) : ℝ) * (2 : ℝ) ^ (e - 52) = (2 : ℝ) ^ e := by
  have h : ((2 ^ 52 : Int) : ℝ) = (2 : ℝ) ^ (52 : Int) := by norm_num
  rw [h, ← zpow_add₀ (by norm_num : (2 : ℝ) ≠ 0)]
  congr 1
  ring

theorem exponent_mono {x y : ℝ} (hx : 0 < x) (h : x ≤ y) : exponent x ≤ exponent y := by
  unfold exponent
  have hy : 0 < y := lt_of_lt_of_le hx h
  rw [abs_of_pos hx, abs_of_pos hy]
  exact max_le_max (Int.log_mono_right hx h) le_rfl

theorem rnd_le_zpow_succ {x : ℝ} (hx : 0 < x) : rnd x ≤ (2 : ℝ) ^ (exponent x + 1) := by
  have h2 : (1 : ℕ) < 2 := by norm_num
  have hlt : x < (2 : ℝ) ^ (exponent x + 1) := by
    have h1 : x < (2 : ℝ) ^ (Int.log 2 x + 1) := by
      exact_mod_cast Int.lt_zpow_succ_log_self h2 x
    have h3 : Int.log 2 x + 1 ≤ exponent x + 1 := by
      unfold exponent
      rw [abs_of_pos hx]
      have := le_max_left (Int.log 2 x) (-1022)
      omega
    exact lt_of_lt_of_le h1 (zpow_le_zpow_right₀ (by norm_num) h3)
  have hu : (0 : ℝ) < ulp x := ulp_pos x
  have hq : x / ulp x ≤ ((2 ^ 53 : Int) : ℝ) := by
    rw [div_le_iff₀ hu]
    have : (((2 ^ 53 : Int) : ℝ)) * ulp x = (2 : ℝ) ^ (exponent x + 1) := by
      unfold ulp
      exact pow53_mul_ulp _
    rw [this]
    exact le_of_lt hlt
  have hr : roundHalfEven (x / ulp x) ≤ 2 ^ 53 := by
    have := roundHalfEven_mono hq
    rwa [roundHalfEven_intCast] at this
  unfold rnd
  have hr' : (roundHalfEven (x / ulp x) : ℝ) ≤ ((2 ^ 53 : Int) : ℝ) := by exact_mod_cast hr
  calc (roundHalfEven (x / ulp x) : ℝ) * ulp x ≤ ((2 ^ 53 : Int) : ℝ) * ulp x :=
        mul_le_mul_of_nonneg_right hr' (le_of_lt hu)
    _ = (2 : ℝ) ^ (exponent x + 1) := by
      unfold ulp
      exact pow53_mul_ulp _

theorem zpow_le_rnd {y : ℝ} (hy : (2 : ℝ) ^ exponent y ≤ y) : (2 : ℝ) ^ exponent y ≤ rnd y := by
  have hu : (0 : ℝ) < ulp y := ulp_pos y
  have hq : ((2 ^ 52 : Int) : ℝ) ≤ y / ulp y := by
    rw [le_div_iff₀ hu]
    have : (((2 ^ 52 : Int) : ℝ)) * ulp y = (2 : ℝ) ^ exponent y := by
      unfold ulp
      exact pow52_mul_ulp _
    rw [this]
    exact hy
  have hr : (2 ^ 52 : Int) ≤ roundHalfEven (y / ulp y) := by
    have := roundHalfEven_mono hq
    rwa [roundHalfEven_intCast] at this
  have hr' : ((2 ^ 52 : Int) : ℝ) ≤ (roundHalfEven (y / ulp y) : ℝ) := by exact_mod_cast hr
  unfold rnd
  calc (2 : ℝ) ^ exponent y = ((2 ^ 52 : Int) : ℝ) * ulp y := by
        unfold ulp
        exact (pow52_mul_ulp _).symm
    _ ≤ (roundHalfEven (y / ulp y) : ℝ) * ulp y :=
        mul_le_mul_of_nonneg_right hr' (le_of_lt hu)

/-- Rounding keeps the order of non-negative values. -/
theorem rnd_mono {x y : ℝ} (hx : 0 ≤ x) (h : x ≤ y) : rnd x ≤ rnd y := by
  rcases eq_or_lt_of_le hx with h0 | hpos
  · rw [← h0, rnd_zero]
    exact rnd_nonneg (le_trans hx h)
  · have hy : 0 < y := lt_of_lt_of_le hpos h
    have he := exponent_mono hpos h
    rcases eq_or_lt_of_le he with heq | hlt
    · have hu : ulp x = ulp y := by
        unfold ulp
        rw [heq]
      unfold rnd
      rw [hu]
      have hq : x / ulp y ≤ y / ulp y := div_le_div_of_nonneg_right h (le_of_lt (ulp_pos y))
      have := roundHalfEven_mono hq
      have hc : (roundHalfEven (x / ulp y) : ℝ) ≤ (roundHalfEven (y / ulp y) : ℝ) := by
        exact_mod_cast this
      exact mul_le_mul_of_nonneg_right hc (le_of_lt (ulp_pos y))
    · have h2 : (1 : ℕ) < 2 := by norm_num
      have hylog : exponent y = Int.log 2 y := by
        unfold exponent at hlt ⊢
        rw [abs_of_pos hy] at hlt ⊢
        apply max_eq_left
        have := le_max_right (Int.log 2 |x|) (-1022)
        by_contra hc
        rw [max_eq_right (le_of_lt (not_le.mp hc))] at hlt
        omega
      have hy2 : (2 : ℝ) ^ exponent y ≤ y := by
        rw [hylog]
        exact_mod_cast Int.zpow_log_le_self h2 hy
      calc rnd x ≤ (2 : ℝ) ^ (exponent x + 1) := rnd_le_zpow_succ hpos
        _ ≤ (2 : ℝ) ^ exponent y := zpow_le_zpow_right₀ (by norm_num) (by omega)
        _ ≤ rnd y := zpow_le_rnd hy2

theorem rnd_one : rnd (1 : ℝ) = 1 :=
  rnd_exact 1 0 (2 ^ 52) (by norm_num) (by norm_num) (by norm_num) (by norm_num)

theorem rnd_half : rnd (0.5 : ℝ) = 0.5 :=
  rnd_exact 0.5 (-1) (2 ^ 52) (by norm_num) (by rw [abs_of_pos] <;> norm_num)
    (by rw [abs_of_pos] <;> norm_num) (by norm_num)

/-- A value at or above the smallest normal double is not rounded to 0. -/
theorem rnd_pos {x : ℝ} (hx : (2 : ℝ) ^ (-1022 : Int) ≤ x) : 0 < rnd x := by
  have hmin : rnd ((2 : ℝ) ^ (-1022 : Int)) = (2 : ℝ) ^ (-1022 : Int) :=
    rnd_exact _ (-1022) (2 ^ 52) le_rfl (by rw [abs_of_pos (by positivity)])
      (by rw [abs_of_pos (by positivity)]
          exact zpow_lt_zpow_right₀ (by norm_num) (by norm_num))
      (pow52_mul_ulp (-1022)).symm
  have := rnd_mono (by positivity) hx
  rw [hmin] at this
  exact lt_of_lt_of_le (by positivity) this

/-- A coarse bound on the size of a rounded value. -/
theorem abs_rnd_le (x : ℝ) : |rnd x| ≤ 2 * |x| + 1 := by
  have hu := ulp_pos x
  have hule : ulp x ≤ |x| + 1 := by
    unfold ulp exponent
    rcases le_total (Int.log 2 |x|) (-1022) with hc | hc
    · rw [max_eq_right hc]
      have : (2 : ℝ) ^ ((-1022 : Int) - 52) ≤ 1 := by norm_num
      have := abs_nonneg x
      linarith
    · rw [max_eq_left hc]
      rcases eq_or_lt_of_le (abs_nonneg x) with h0 | hx0
      · rw [← h0, Int.log_of_right_le_zero 2 le_rfl]
        norm_num
      · have h1 : (2 : ℝ) ^ (Int.log 2 |x| - 52) ≤ (2 : ℝ) ^ (Int.log 2 |x|) :=
          zpow_le_zpow_right₀ (by norm_num) (by omega)
        have h2 : (2 : ℝ) ^ (Int.log 2 |x|) ≤ |x| := by
          exact_mod_cast Int.zpow_log_le_self (by norm_num : (1 : ℕ) < 2) hx0
        linarith
  have h1 := roundHalfEven_sub_le (x / ulp x)
  have h2 := sub_roundHalfEven_le (x / ulp x)
  have hx : x = x / ulp x * ulp x := by field_simp
  have hd : |rnd x - x| ≤ ulp x / 2 := by
    unfold rnd
    rw [abs_le]
    constructor
    · have : (x / ulp x - (roundHalfEven (x / ulp x) : ℝ)) * ulp x ≤ 1 / 2 * ulp x :=
        mul_le_mul_of_nonneg_right h2 (le_of_lt hu)
      nlinarith
    · have : ((roundHalfEven (x / ulp x) : ℝ) - x / ulp x) * ulp x ≤ 1 / 2 * ulp x :=
        mul_le_mul_of_nonneg_right h1 (le_of_lt hu)
      nlinarith
  have habs : |rnd x| ≤ |rnd x - x| + |x| := by
    have := abs_add (rnd x - x) x
    simpa using this
  have := abs_nonneg x
  linarith

theorem rnd_le_of_le {x B : ℝ} (hx : 0 ≤ x) (hB : x ≤ B) : rnd x ≤ 2 * B + 1 := by
  have h := abs_rnd_le x
  rw [abs_of_nonneg hx] at h
  have := le_abs_self (rnd x)
  linarith

theorem b64_distanceTo_nonneg (p v : Vector3 ℝ) : 0 ≤ Binary64.distanceTo Real.sqrt p v :=
  rnd_nonneg (Real.sqrt_nonneg _)

theorem rnd_sq_le {a B : ℝ} (ha : |a| ≤ B) : rnd (a * a) ≤ 2 * (B * B) + 1 := by
  have h0 : 0 ≤ a * a := mul_self_nonneg a
  have hB : 0 ≤ B := le_trans (abs_nonneg a) ha
  have h1 : a * a ≤ B * B := by
    rw [← abs_mul_abs_self a]
    exact mul_le_mul ha ha (abs_nonneg a) hB
  exact rnd_le_of_le h0 h1

/-- In the cube no intermediate value of the distance comes near the overflow threshold. -/
theorem b64_distanceTo_le (p v : Vector3 ℝ) (hp : |p.x| ≤ 1 ∧ |p.y| ≤ 1 ∧ |p.z| ≤ 1)
    (hv : |v.x| ≤ 1 ∧ |v.y| ≤ 1 ∧ |v.z| ≤ 1) : Binary64.distanceTo Real.sqrt p v ≤ 47 := by
  have hd : ∀ a b : ℝ, |a| ≤ 1 → |b| ≤ 1 → |rnd (a - b)| ≤ 5 := by
    intro a b ha hb
    have h1 := abs_rnd_le (a - b)
    have h2 := abs_sub a b
    linarith
  have hx := rnd_sq_le (hd p.x v.x hp.1 hv.1)
  have hy := rnd_sq_le (hd p.y v.y hp.2.1 hv.2.1)
  have hz := rnd_sq_le (hd p.z v.z hp.2.2 hv.2.2)
  have nx : 0 ≤ rnd (rnd (p.x - v.x) * rnd (p.x - v.x)) := rnd_nonneg (mul_self_nonneg _)
  have ny : 0 ≤ rnd (rnd (p.y - v.y) * rnd (p.y - v.y)) := rnd_nonneg (mul_self_nonneg _)
  have nz : 0 ≤ rnd (rnd (p.z - v.z) * rnd (p.z - v.z)) := rnd_nonneg (mul_self_nonneg _)
  have hxy : rnd (rnd (rnd (p.x - v.x) * rnd (p.x - v.x))
      + rnd (rnd (p.y - v.y) * rnd (p.y - v.y))) ≤ 2 * 102 + 1 :=
    rnd_le_of_le (by linarith) (by linarith)
  have nxy : 0 ≤ rnd (rnd (rnd (p.x - v.x) * rnd (p.x - v.x))
      + rnd (rnd (p.y - v.y) * rnd (p.y - v.y))) := rnd_nonneg (by linarith)
  have hsum : Binary64.distanceToSquared p v ≤ 2 * 256 + 1 := by
    simp only [Binary64.distanceToSquared]
    exact rnd_le_of_le (by linarith) (by linarith)
  have hsqrt : Real.sqrt (Binary64.distanceToSquared p v) ≤ 23 := by
    rw [Real.sqrt_le_left (by norm_num)]
    linarith
  unfold Binary64.distanceTo
  have := rnd_le_of_le (Real.sqrt_nonneg _) hsqrt
  linarith

theorem b64_tumorDenominator_ge (p t : Vector3 ℝ) :
    1 ≤ Binary64.tumorDenominator Real.sqrt p t := by
  unfold Binary64.tumorDenominator
  have hy : 0 ≤ rnd (Binary64.distanceTo Real.sqrt p t * 10) :=
    rnd_nonneg (mul_nonneg (b64_distanceTo_nonneg p t) (by norm_num))
  have := rnd_mono (by norm_num : (0 : ℝ) ≤ 1)
    (by linarith : (1 : ℝ) ≤ 1 + rnd (Binary64.distanceTo Real.sqrt p t * 10))
  rwa [rnd_one] at this

theorem b64_beamDenominator_ge (p b : Vector3 ℝ) :
    1 ≤ Binary64.beamDenominator Real.sqrt p b := by
  unfold Binary64.beamDenominator
  have hy : 0 ≤ rnd (Binary64.distanceTo Real.sqrt p b * 5) :=
    rnd_nonneg (mul_nonneg (b64_distanceTo_nonneg p b) (by norm_num))
  have := rnd_mono (by norm_num : (0 : ℝ) ≤ 1)
    (by linarith : (1 : ℝ) ≤ 1 + rnd (Binary64.distanceTo Real.sqrt p b * 5))
  rwa [rnd_one] at this

theorem b64_tumorDenominator_le (p t : Vector3 ℝ) (hp : |p.x| ≤ 1 ∧ |p.y| ≤ 1 ∧ |p.z| ≤ 1)
    (ht : |t.x| ≤ 1 ∧ |t.y| ≤ 1 ∧ |t.z| ≤ 1) :
    Binary64.tumorDenominator Real.sqrt p t ≤ 2048 := by
  have hd := b64_distanceTo_le p t hp ht
  have h0 := b64_distanceTo_nonneg p t
  have h1 : rnd (Binary64.distanceTo Real.sqrt p t * 10) ≤ 2 * 470 + 1 :=
    rnd_le_of_le (by linarith) (by linarith)
  have n1 : 0 ≤ rnd (Binary64.distanceTo Real.sqrt p t * 10) := rnd_nonneg (by linarith)
  unfold Binary64.tumorDenominator
  have := rnd_le_of_le (by linarith : 0 ≤ 1 + rnd (Binary64.distanceTo Real.sqrt p t * 10))
    (by linarith : 1 + rnd (Binary64.distanceTo Real.sqrt p t * 10) ≤ 942)
  linarith

theorem b64_beamDenominator_le (p b : Vector3 ℝ) (hp : |p.x| ≤ 1 ∧ |p.y| ≤ 1 ∧ |p.z| ≤ 1)
    (hb : |b.x| ≤ 1 ∧ |b.y| ≤ 1 ∧ |b.z| ≤ 1) :
    Binary64.beamDenominator Real.sqrt p b ≤ 2048 := by
  have hd := b64_distanceTo_le p b hp hb
  have h0 := b64_distanceTo_nonneg p b
  have h1 : rnd (Binary64.distanceTo Real.sqrt p b * 5) ≤ 2 * 235 + 1 :=
    rnd_le_of_le (by linarith) (by linarith)
  have n1 : 0 ≤ rnd (Binary64.distanceTo Real.sqrt p b * 5) := rnd_nonneg (by linarith)
  unfold Binary64.beamDenominator
  have := rnd_le_of_le (by linarith : 0 ≤ 1 + rnd (Binary64.distanceTo Real.sqrt p b * 5))
    (by linarith : 1 + rnd (Binary64.distanceTo Real.sqrt p b * 5) ≤ 472)
  linarith

/-- A quotient `c / D` with `c` at least one half and `1 ≤ D ≤ 2048` is not rounded to 0. -/
theorem rnd_div_pos {c D : ℝ} (hc : 1 / 2 ≤ c) (h1 : 1 ≤ D) (h2 : D ≤ 2048) :
    0 < rnd (c / D) := by
  apply rnd_pos
  have hD : 0 < D := by linarith
  rw [le_div_iff₀ hD]
  have h3 : (2 : ℝ) ^ (-1022 : Int) ≤ (2 : ℝ) ^ (-12 : Int) :=
    zpow_le_zpow_right₀ (by norm_num) (by norm_num)
  have h4 : (2 : ℝ) ^ (-12 : Int) * D ≤ 1 / 2 := by
    have : (2 : ℝ) ^ (-12 : Int) = 1 / 4096 := by norm_num
    rw [this]
    linarith
  have h5 : (2 : ℝ) ^ (-1022 : Int) * D ≤ (2 : ℝ) ^ (-12 : Int) * D :=
    mul_le_mul_of_nonneg_right h3 (le_of_lt hD)
  exact le_trans h5 (le_trans h4 hc)

theorem b64_tumorTerm_antitone (p q t : Vector3 ℝ)
    (h : Binary64.distanceTo Real.sqrt p t ≤ Binary64.distanceTo Real.sqrt q t) :
    Binary64.tumorTerm Real.sqrt q t ≤ Binary64.tumorTerm Real.sqrt p t := by
  have hp0 := b64_distanceTo_nonneg p t
  have hDp := b64_tumorDenominator_ge p t
  have hDq := b64_tumorDenominator_ge q t
  have hD : Binary64.tumorDenominator Real.sqrt p t ≤ Binary64.tumorDenominator Real.sqrt q t := by
    unfold Binary64.tumorDenominator
    have h1 : rnd (Binary64.distanceTo Real.sqrt p t * 10)
        ≤ rnd (Binary64.distanceTo Real.sqrt q t * 10) :=
      rnd_mono (by linarith) (by linarith)
    have n1 : 0 ≤ rnd (Binary64.distanceTo Real.sqrt p t * 10) := rnd_nonneg (by linarith)
    exact rnd_mono (by linarith) (by linarith)
  unfold Binary64.tumorTerm
  apply rnd_mono
  · exact div_nonneg (by norm_num) (by linarith)
  · exact one_div_le_one_div_of_le (by linarith) hD

theorem b64_tumorTerm_of_distance_zero (p t : Vector3 ℝ)
    (h : Binary64.distanceTo Real.sqrt p t = 0) : Binary64.tumorTerm Real.sqrt p t = 1 := by
  unfold Binary64.tumorTerm Binary64.tumorDenominator
  rw [h, zero_mul, rnd_zero, add_zero, rnd_one, div_one, rnd_one]

theorem b64_distanceTo_self (p : Vector3 ℝ) : Binary64.distanceTo Real.sqrt p p = 0 := by
  simp [Binary64.distanceTo, Binary64.distanceToSquared, rnd_zero]

/-- A value less than half a spacing above a multiple of the spacing is rounded down to it. -/
theorem rnd_down (x : ℝ) (e n : Int) (he : -1022 ≤ e) (hlo : (2 : ℝ) ^ e ≤ |x|)
    (hhi : |x| < (2 : ℝ) ^ (e + 1)) (h1 : (n : ℝ) * (2 : ℝ) ^ (e - 52) ≤ x)
    (h2 : x < ((n : ℝ) + 1 / 2) * (2 : ℝ) ^ (e - 52)) : rnd x = (n : ℝ) * (2 : ℝ) ^ (e - 52) := by
  have hpos : 0 < |x| := lt_of_lt_of_le (by positivity) hlo
  have hexp : exponent x = e := by
    unfold exponent
    rw [log_two_eq hpos hlo hhi]
    exact max_eq_left he
  unfold rnd ulp
  rw [hexp]
  have hu : (0 : ℝ) < (2 : ℝ) ^ (e - 52) := by positivity
  have hq1 : (n : ℝ) ≤ x / (2 : ℝ) ^ (e - 52) := by
    rw [le_div_iff₀ hu]
    exact h1
  have hq2 : x / (2 : ℝ) ^ (e - 52) < (n : ℝ) + 1 / 2 := by
    rw [div_lt_iff₀ hu]
    exact h2
  have hfl : ⌊x / (2 : ℝ) ^ (e - 52)⌋ = n := by
    rw [Int.floor_eq_iff]
    exact ⟨hq1, by linarith⟩
  have hr : roundHalfEven (x / (2 : ℝ) ^ (e - 52)) = n := by
    unfold roundHalfEven
    rw [hfl, if_pos (by linarith)]
  rw [hr]

/-- The tumor `2⁻⁶⁰` off the sample point `(0, 0, 0)` along `x`: the computed distance is
`2⁻⁶⁰`, every operation up to `1 + dist * 10` is exact, and that sum is rounded to 1. -/
theorem b64_small_offset :
    Binary64.distanceTo Real.sqrt ⟨0, 0, 0⟩ ⟨(2 : ℝ) ^ (-60 : Int), 0, 0⟩ = (2 : ℝ) ^ (-60 : Int)
      ∧ Binary64.tumorDenominator Real.sqrt ⟨0, 0, 0⟩ ⟨(2 : ℝ) ^ (-60 : Int), 0, 0⟩ = 1
      ∧ Binary64.tumorTerm Real.sqrt ⟨0, 0, 0⟩ ⟨(2 : ℝ) ^ (-60 : Int), 0, 0⟩ = 1 := by
  have hdx : rnd ((0 : ℝ) - (2 : ℝ) ^ (-60 : Int)) = -(2 : ℝ) ^ (-60 : Int) := by
    rw [zero_sub]
    exact rnd_exact _ (-60) (-(2 ^ 52)) (by norm_num)
      (by rw [abs_neg, abs_of_pos (by positivity)])
      (by rw [abs_neg, abs_of_pos (by positivity)]; norm_num) (by norm_num)
  have hsq : rnd (-(2 : ℝ) ^ (-60 : Int) * -(2 : ℝ) ^ (-60 : Int)) = (2 : ℝ) ^ (-120 : Int) := by
    have : -(2 : ℝ) ^ (-60 : Int) * -(2 : ℝ) ^ (-60 : Int) = (2 : ℝ) ^ (-120 : Int) := by
      norm_num
    rw [this]
    exact rnd_exact _ (-120) (2 ^ 52) (by norm_num) (by rw [abs_of_pos (by positivity)])
      (by rw [abs_of_pos (by positivity)]; norm_num) (by norm_num)
  have h120 : rnd ((2 : ℝ) ^ (-120 : Int)) = (2 : ℝ) ^ (-120 : Int) :=
    rnd_exact _ (-120) (2 ^ 52) (by norm_num) (by rw [abs_of_pos (by positivity)])
      (by rw [abs_of_pos (by positivity)]; norm_num) (by norm_num)
  have h60 : rnd ((2 : ℝ) ^ (-60 : Int)) = (2 : ℝ) ^ (-60 : Int) :=
    rnd_exact _ (-60) (2 ^ 52) (by norm_num) (by rw [abs_of_pos (by positivity)])
      (by rw [abs_of_pos (by positivity)]; norm_num) (by norm_num)
  have hsqrt : Real.sqrt ((2 : ℝ) ^ (-120 : Int)) = (2 : ℝ) ^ (-60 : Int) := by
    rw [show (2 : ℝ) ^ (-120 : Int) = ((2 : ℝ) ^ (-60 : Int)) ^ 2 by norm_num]
    exact Real.sqrt_sq (by positivity)
  have hdist : Binary64.distanceTo Real.sqrt ⟨0, 0, 0⟩ ⟨(2 : ℝ) ^ (-60 : Int), 0, 0⟩
      = (2 : ℝ) ^ (-60 : Int) := by
    simp only [Binary64.distanceTo, Binary64.distanceToSquared, hdx, hsq, sub_zero, rnd_zero,
      mul_zero, add_zero, h120, hsqrt, h60]
  have hten : rnd ((2 : ℝ) ^ (-60 : Int) * 10) = (2 : ℝ) ^ (-60 : Int) * 10 :=
    rnd_exact _ (-57) (10 * 2 ^ 49) (by norm_num)
      (by rw [abs_of_pos (by positivity)]; norm_num)
      (by rw [abs_of_pos (by positivity)]; norm_num) (by norm_num)
  have hone : rnd (1 + (2 : ℝ) ^ (-60 : Int) * 10) = 1 := by
    have h := rnd_down (1 + (2 : ℝ) ^ (-60 : Int) * 10) 0 (2 ^ 52) (by norm_num)
      (by rw [abs_of_pos (by positivity)]; norm_num)
      (by rw [abs_of_pos (by positivity)]; norm_num) (by norm_num) (by norm_num)
    rw [h]
    norm_num
  have hden : Binary64.tumorDenominator Real.sqrt ⟨0, 0, 0⟩ ⟨(2 : ℝ) ^ (-60 : Int), 0, 0⟩ = 1 := by
    unfold Binary64.tumorDenominator
    rw [hdist, hten, hone]
  refine ⟨hdist, hden, ?_⟩
  unfold Binary64.tumorTerm
  rw [hden, div_one, rnd_one]

end Rounding

/-! ## The claims -/

section Claims

open DoseDistribution

/-- C1. For every tumor position, every list of beam positions (the empty one included) and
every cell `(i, j, k)`, the value `Math.min(255, Math.floor(dose * 255))` of line 89 is an
integer between 0 and 255, the `Uint8Array` keeps it unchanged, and for a grid index
(`i, j, k < 64`) it is the byte found at `index i j k` after the loop. -/
theorem C1_sample_in_byte_range (tumorPosition : Vector3 ℝ) (beamPositions : List (Vector3 ℝ))
    (i j k : Nat) :
    0 ≤ sample Real.sqrt tumorPosition beamPositions i j k
      ∧ sample Real.sqrt tumorPosition beamPositions i j k ≤ 255
      ∧ (toUint8 (sample Real.sqrt tumorPosition beamPositions i j k) : Int)
          = sample Real.sqrt tumorPosition beamPositions i j k
      ∧ (i < size → j < size → k < size →
          (data Real.sqrt tumorPosition beamPositions)[index i j k]?
            = some (sample Real.sqrt tumorPosition beamPositions i j k).toNat) := by
  have h0 : 0 ≤ sample Real.sqrt tumorPosition beamPositions i j k :=
    quantize_nonneg _ (le_of_lt (dose_pos _ _ _))
  have h1 : sample Real.sqrt tumorPosition beamPositions i j k ≤ 255 := quantize_le _
  refine ⟨h0, h1, toUint8_of_byte _ h0 h1, ?_⟩
  intro hi hj hk
  rw [data_getElem? Real.sqrt tumorPosition beamPositions i j k hi hj hk]
  congr 1
  have h := toUint8_of_byte _ h0 h1
  omega

/-- C2. Adding a beam never lowers the dose: wherever the beam `b` is put into the list
(`bs₁ ++ b :: bs₂` against `bs₁ ++ bs₂`; at the end, as `push` does, when `bs₂` is empty),
at every cell the accumulated dose with `b` is at least the dose without it, and so is the
quantized sample. -/
theorem C2_adding_beam_monotone (tumorPosition : Vector3 ℝ) (bs₁ bs₂ : List (Vector3 ℝ))
    (b : Vector3 ℝ) (i j k : Nat) :
    dose Real.sqrt tumorPosition (bs₁ ++ bs₂) (point i j k)
        ≤ dose Real.sqrt tumorPosition (bs₁ ++ b :: bs₂) (point i j k)
      ∧ sample Real.sqrt tumorPosition (bs₁ ++ bs₂) i j k
        ≤ sample Real.sqrt tumorPosition (bs₁ ++ b :: bs₂) i j k := by
  have h : dose Real.sqrt tumorPosition (bs₁ ++ bs₂) (point i j k)
      ≤ dose Real.sqrt tumorPosition (bs₁ ++ b :: bs₂) (point i j k) := by
    rw [dose_eq_sum, dose_eq_sum]
    simp only [List.map_append, List.map_cons, List.sum_append, List.sum_cons]
    have hb := beamTerm_nonneg (point i j k) b
    linarith
  exact ⟨h, quantize_mono h⟩

/-- C4. With the tumor at the origin and no beam, the cell `(32, 32, 32)` has the origin as
its sample point, its accumulated dose is exactly 1 and its sample exactly 255. -/
theorem C4_origin_cell :
    (point 32 32 32 : Vector3 ℝ) = ⟨0, 0, 0⟩
      ∧ dose Real.sqrt ⟨0, 0, 0⟩ [] (point 32 32 32) = 1
      ∧ sample Real.sqrt (⟨0, 0, 0⟩ : Vector3 ℝ) [] 32 32 32 = 255 := by
  have hp : (point 32 32 32 : Vector3 ℝ) = ⟨0, 0, 0⟩ := by
    simp [point, Vector3.multiplyScalar, Vector3.subScalar, size]
    norm_num
  have hd : dose Real.sqrt ⟨0, 0, 0⟩ [] (point 32 32 32) = 1 := by
    rw [hp]
    simp [dose, tumorTerm, Vector3.distanceTo, Vector3.distanceToSquared]
  refine ⟨hp, hd, ?_⟩
  unfold sample quantize
  rw [hd]
  norm_num

/-- C6. For an accumulated dose `d ≥ 0` the value stored by the code,
`min(255, floor(d * 255))`, is the clamp-then-quantize of the specification,
`floor(255 * min(1, d))`; the sample over 255 lies in `[0, 1]`, and the sample is 255
exactly when `d ≥ 1`. -/
theorem C6_quantize_refines_clamp [FloorRing α] (d : α) (hd : 0 ≤ d) :
    quantize d = clampThenQuantize d
      ∧ 0 ≤ (quantize d : α) / 255 ∧ (quantize d : α) / 255 ≤ 1
      ∧ (quantize d = 255 ↔ 1 ≤ d) := by
  have hq0 := quantize_nonneg d hd
  have hq1 := quantize_le d
  have hiff : quantize d = 255 ↔ 1 ≤ d := by
    unfold quantize
    constructor
    · intro h
      have h255 : (255 : Int) ≤ ⌊d * 255⌋ := by
        rw [← h]
        exact min_le_right _ _
      have h2 : ((255 : Int) : α) ≤ d * 255 := Int.le_floor.mp h255
      push_cast at h2
      linarith
    · intro h
      apply min_eq_left
      apply Int.le_floor.mpr
      push_cast
      linarith
  refine ⟨?_, ?_, ?_, hiff⟩
  · unfold quantize clampThenQuantize
    rcases le_or_lt 1 d with h | h
    · rw [min_eq_left h, mul_one]
      have : (255 : Int) ≤ ⌊d * 255⌋ := by
        apply Int.le_floor.mpr
        push_cast
        linarith
      rw [min_eq_left this]
      simp
    · rw [min_eq_right (le_of_lt h), mul_comm]
      apply min_eq_right
      apply le_of_lt
      apply Int.floor_lt.mpr
      push_cast
      linarith
  · have : (0 : α) ≤ (quantize d : α) := by exact_mod_cast hq0
    positivity
  · have : (quantize d : α) ≤ 255 := by exact_mod_cast hq1
    rw [div_le_one (by norm_num)]
    exact this

/-- C6 at the dose one half: the stored sample is 127 both ways. -/
theorem C6_quantize_refines_clamp_witness :
    (0 : ℚ) ≤ 1 / 2 ∧ quantize (1 / 2 : ℚ) = 127 ∧ clampThenQuantize (1 / 2 : ℚ) = 127
      ∧ (quantize (1 / 2 : ℚ) = clampThenQuantize (1 / 2 : ℚ)
        ∧ 0 ≤ (quantize (1 / 2 : ℚ) : ℚ) / 255 ∧ (quantize (1 / 2 : ℚ) : ℚ) / 255 ≤ 1
        ∧ (quantize (1 / 2 : ℚ) = 255 ↔ (1 : ℚ) ≤ 1 / 2)) :=
  ⟨by norm_num, by norm_num [quantize], by norm_num [clampThenQuantize],
    C6_quantize_refines_clamp (1 / 2 : ℚ) (by norm_num)⟩

/-- The dose of the corner cell `(0, 0, 0)`, tumor at the origin, no beam. -/
theorem dose_corner :
    dose Real.sqrt ⟨0, 0, 0⟩ [] (point 0 0 0) = 1 / (1 + 10 * Real.sqrt 3) := by
  rw [point_zero]
  simp only [dose, tumorTerm, Vector3.distanceTo, Vector3.distanceToSquared, List.foldl_nil]
  norm_num
  ring

/-- The corner cell, tumor at the origin, no beam: bounds on the dose, and the sample. -/
theorem corner_values :
    0.0545 < dose Real.sqrt ⟨0, 0, 0⟩ [] (point 0 0 0)
      ∧ dose Real.sqrt ⟨0, 0, 0⟩ [] (point 0 0 0) < 0.0547
      ∧ sample Real.sqrt (⟨0, 0, 0⟩ : Vector3 ℝ) [] 0 0 0 = 13 := by
  obtain ⟨hlo, hhi⟩ := sqrt_three_bounds
  have hpos : (0 : ℝ) < 1 + 10 * Real.sqrt 3 := by linarith
  refine ⟨?_, ?_, ?_⟩
  · rw [dose_corner, lt_div_iff₀ hpos]
    linarith
  · rw [dose_corner, div_lt_iff₀ hpos]
    linarith
  · unfold sample quantize
    rw [dose_corner]
    have hfloor : ⌊1 / (1 + 10 * Real.sqrt 3) * 255⌋ = 13 := by
      rw [Int.floor_eq_iff]
      constructor
      · rw [div_mul_eq_mul_div, le_div_iff₀ hpos]
        push_cast
        linarith
      · rw [div_mul_eq_mul_div, div_lt_iff₀ hpos]
        push_cast
        linarith
    rw [hfloor]
    rfl

/-- C3, as the code has it. With the tumor at the origin and no beam, the corner cell
`(0, 0, 0)` has the sample point `(-1, -1, -1)`, its dose is `1 / (1 + 10 * sqrt 3)`, which
lies between 0.0545 and 0.0547, and the sample stored for it is 13. -/
theorem C3_corner_cell :
    (point 0 0 0 : Vector3 ℝ) = ⟨-1, -1, -1⟩
      ∧ dose Real.sqrt ⟨0, 0, 0⟩ [] (point 0 0 0) = 1 / (1 + 10 * Real.sqrt 3)
      ∧ 0.0545 < dose Real.sqrt ⟨0, 0, 0⟩ [] (point 0 0 0)
      ∧ dose Real.sqrt ⟨0, 0, 0⟩ [] (point 0 0 0) < 0.0547
      ∧ sample Real.sqrt (⟨0, 0, 0⟩ : Vector3 ℝ) [] 0 0 0 = 13 :=
  ⟨point_zero, dose_corner, corner_values⟩

/-- C3, as the specification has it, fails: the sample of the corner cell is not 8, and
the dose there is above 0.054, not near 0.031. -/
theorem C3_corner_sample_not_eight :
    sample Real.sqrt (⟨0, 0, 0⟩ : Vector3 ℝ) [] 0 0 0 ≠ 8
      ∧ 0.054 < dose Real.sqrt ⟨0, 0, 0⟩ [] (point 0 0 0) := by
  obtain ⟨h3, _, h5⟩ := corner_values
  constructor
  · rw [h5]
    decide
  · linarith

/-- C5, as the code has it. Tumor at the origin, beams at `(1, 1, 1)` and `(-1, -1, -1)`:
for every cell with all three indices between 1 and 63, the cell
`(64 - i, 64 - j, 64 - k)` is in the grid, its sample point is the reflection of the
sample point of `(i, j, k)`, and the two cells store the same sample. -/
theorem C5_interior_reflection (i j k : Nat) (hi0 : 0 < i) (hj0 : 0 < j) (hk0 : 0 < k)
    (hi : i < size) (hj : j < size) (hk : k < size) :
    size - i < size ∧ size - j < size ∧ size - k < size
      ∧ (point (size - i) (size - j) (size - k) : Vector3 ℝ) = (point i j k).negate
      ∧ sample Real.sqrt ⟨0, 0, 0⟩ [⟨1, 1, 1⟩, ⟨-1, -1, -1⟩] (size - i) (size - j) (size - k)
          = sample Real.sqrt ⟨0, 0, 0⟩ [⟨1, 1, 1⟩, ⟨-1, -1, -1⟩] i j k := by
  have hp := point_reflect i j k (le_of_lt hi) (le_of_lt hj) (le_of_lt hk)
  refine ⟨by omega, by omega, by omega, hp, ?_⟩
  unfold sample
  rw [hp, dose_negate]

/-- C5 at the cell `(1, 2, 3)`, whose reflected cell is `(63, 62, 61)`. -/
theorem C5_interior_reflection_witness :
    size - 1 = 63 ∧ size - 2 = 62 ∧ size - 3 = 61
      ∧ (size - 1 < size ∧ size - 2 < size ∧ size - 3 < size
        ∧ (point (size - 1) (size - 2) (size - 3) : Vector3 ℝ) = (point 1 2 3).negate
        ∧ sample Real.sqrt ⟨0, 0, 0⟩ [⟨1, 1, 1⟩, ⟨-1, -1, -1⟩] (size - 1) (size - 2) (size - 3)
            = sample Real.sqrt ⟨0, 0, 0⟩ [⟨1, 1, 1⟩, ⟨-1, -1, -1⟩] 1 2 3) :=
  ⟨by decide, by decide, by decide,
    C5_interior_reflection 1 2 3 (by decide) (by decide) (by decide) (by decide) (by decide)
      (by decide)⟩

/-- C5, as the specification has it, fails: not every cell of the grid has its reflected
sample point in the grid.  The cell `(0, 0, 0)` samples `(-1, -1, -1)`, and no index below
64 is mapped to the coordinate 1. -/
theorem C5_reflected_cell_missing :
    ¬ ∀ i j k : Nat, i < size → j < size → k < size →
        ∃ i' j' k' : Nat, i' < size ∧ j' < size ∧ k' < size
          ∧ (point i' j' k' : Vector3 ℝ) = (point i j k).negate
          ∧ sample Real.sqrt ⟨0, 0, 0⟩ [⟨1, 1, 1⟩, ⟨-1, -1, -1⟩] i' j' k'
              = sample Real.sqrt ⟨0, 0, 0⟩ [⟨1, 1, 1⟩, ⟨-1, -1, -1⟩] i j k := by
  intro h
  obtain ⟨i', j', k', hi', _, _, hp, _⟩ := h 0 0 0 (by decide) (by decide) (by decide)
  have hx := congrArg Vector3.x hp
  simp only [point, Vector3.multiplyScalar, Vector3.subScalar, Vector3.negate, size] at hx
  have h64 : (i' : ℝ) = 64 := by
    push_cast at hx
    linarith
  have : i' = 64 := by exact_mod_cast h64
  unfold size at hi'
  omega

/-- C7, as the code has it. On the doubles of the running code, for every sample point `p`
and every source `s` of the cube `[-1, 1]³`, `p = s` included: the denominators
`1 + dist * 10` and `1 + dist * 5` are at least 1, so no term divides by zero; the tumor
term lies in `(0, 1]` and the beam term in `(0, 0.5]`; the tumor term is 1 whenever the
distance is 0, as it is at `p = s`; a point whose distance to the tumor is at most that of
another has a tumor term at least as large, so over the grid the tumor term is greatest at
a cell whose sample point is nearest to the tumor.  The bounds on the two terms hold as well
for the terms in exact arithmetic, of which `dose` is the sum. -/
theorem C7_falloff_bounded (p s : Vector3 ℝ) (hp : |p.x| ≤ 1 ∧ |p.y| ≤ 1 ∧ |p.z| ≤ 1)
    (hs : |s.x| ≤ 1 ∧ |s.y| ≤ 1 ∧ |s.z| ≤ 1) :
    1 ≤ Binary64.tumorDenominator Real.sqrt p s
      ∧ 1 ≤ Binary64.beamDenominator Real.sqrt p s
      ∧ 0 < Binary64.tumorTerm Real.sqrt p s
      ∧ Binary64.tumorTerm Real.sqrt p s ≤ 1
      ∧ 0 < Binary64.beamTerm Real.sqrt p s
      ∧ Binary64.beamTerm Real.sqrt p s ≤ 0.5
      ∧ (Binary64.distanceTo Real.sqrt p s = 0 → Binary64.tumorTerm Real.sqrt p s = 1)
      ∧ Binary64.distanceTo Real.sqrt s s = 0
      ∧ Binary64.tumorTerm Real.sqrt s s = 1
      ∧ (∀ q : Vector3 ℝ,
          Binary64.distanceTo Real.sqrt p s ≤ Binary64.distanceTo Real.sqrt q s →
          Binary64.tumorTerm Real.sqrt q s ≤ Binary64.tumorTerm Real.sqrt p s)
      ∧ (∀ i₀ j₀ k₀ : Nat,
          (∀ i j k : Nat, i < size → j < size → k < size →
            Binary64.distanceTo Real.sqrt (point i₀ j₀ k₀) s
              ≤ Binary64.distanceTo Real.sqrt (point i j k) s) →
          ∀ i j k : Nat, i < size → j < size → k < size →
            Binary64.tumorTerm Real.sqrt (point i j k) s
              ≤ Binary64.tumorTerm Real.sqrt (point i₀ j₀ k₀) s)
      ∧ 0 < tumorTerm Real.sqrt p s
      ∧ tumorTerm Real.sqrt p s ≤ 1
      ∧ 0 < beamTerm Real.sqrt p s
      ∧ beamTerm Real.sqrt p s ≤ 0.5 := by
  have hDt := b64_tumorDenominator_ge p s
  have hDb := b64_beamDenominator_ge p s
  have hDt2 := b64_tumorDenominator_le p s hp hs
  have hDb2 := b64_beamDenominator_le p s hp hs
  refine ⟨hDt, hDb, ?_, ?_, ?_, ?_, b64_tumorTerm_of_distance_zero p s, b64_distanceTo_self s,
    b64_tumorTerm_of_distance_zero s s (b64_distanceTo_self s),
    fun q hq => b64_tumorTerm_antitone p q s hq, ?_, tumorTerm_pos p s, ?_, ?_, ?_⟩
  · exact rnd_div_pos (by norm_num) hDt hDt2
  · unfold Binary64.tumorTerm
    have h1 : 1 / Binary64.tumorDenominator Real.sqrt p s ≤ 1 := by
      rw [div_le_one (by linarith)]
      exact hDt
    have := rnd_mono (div_nonneg (by norm_num) (by linarith)) h1
    rwa [rnd_one] at this
  · exact rnd_div_pos (by norm_num) hDb hDb2
  · unfold Binary64.beamTerm
    have h1 : 0.5 / Binary64.beamDenominator Real.sqrt p s ≤ 0.5 :=
      div_le_self (by norm_num) hDb
    have := rnd_mono (div_nonneg (by norm_num) (by linarith)) h1
    rwa [rnd_half] at this
  · intro i₀ j₀ k₀ hnear i j k hi hj hk
    exact b64_tumorTerm_antitone _ _ s (hnear i j k hi hj hk)
  · unfold tumorTerm
    have hd := distanceTo_nonneg p s
    rw [div_le_one (by linarith)]
    linarith
  · unfold beamTerm
    have hd := distanceTo_nonneg p s
    positivity
  · unfold beamTerm
    have hd := distanceTo_nonneg p s
    exact div_le_self (by norm_num) (by linarith)

/-- C7 at the sample point `(0, 0, 0)` of the cell `(32, 32, 32)` with the source at
`(1, 0, 0)`. -/
theorem C7_falloff_bounded_witness :
    (|(0 : ℝ)| ≤ 1 ∧ |(1 : ℝ)| ≤ 1)
      ∧ 1 ≤ Binary64.tumorDenominator Real.sqrt ⟨0, 0, 0⟩ ⟨1, 0, 0⟩
      ∧ 1 ≤ Binary64.beamDenominator Real.sqrt ⟨0, 0, 0⟩ ⟨1, 0, 0⟩
      ∧ 0 < Binary64.tumorTerm Real.sqrt ⟨0, 0, 0⟩ ⟨1, 0, 0⟩
      ∧ Binary64.tumorTerm Real.sqrt ⟨0, 0, 0⟩ ⟨1, 0, 0⟩ ≤ 1
      ∧ 0 < Binary64.beamTerm Real.sqrt ⟨0, 0, 0⟩ ⟨1, 0, 0⟩
      ∧ Binary64.beamTerm Real.sqrt ⟨0, 0, 0⟩ ⟨1, 0, 0⟩ ≤ 0.5 := by
  have h := C7_falloff_bounded ⟨0, 0, 0⟩ ⟨1, 0, 0⟩ (by simp) (by simp)
  exact ⟨by simp, h.1, h.2.1, h.2.2.1, h.2.2.2.1, h.2.2.2.2.1, h.2.2.2.2.2.1⟩

/-- C7, as the specification has it, fails on the doubles of the running code: the tumor
term is 1 at a distance that is not 0.  With the tumor at `(2⁻⁶⁰, 0, 0)`, the cell
`(32, 32, 32)` has the sample point `(0, 0, 0)`, the distance is `2⁻⁶⁰` (computed, and
exact), `1 + dist * 10` is rounded to 1, and the tumor term is `1 / 1 = 1`. -/
theorem C7_term_one_at_nonzero_distance :
    (point 32 32 32 : Vector3 ℝ) = ⟨0, 0, 0⟩
      ∧ Binary64.tumorTerm Real.sqrt (point 32 32 32) ⟨(2 : ℝ) ^ (-60 : Int), 0, 0⟩ = 1
      ∧ Binary64.distanceTo Real.sqrt (point 32 32 32) ⟨(2 : ℝ) ^ (-60 : Int), 0, 0⟩
          = (2 : ℝ) ^ (-60 : Int)
      ∧ Binary64.distanceTo Real.sqrt (point 32 32 32) ⟨(2 : ℝ) ^ (-60 : Int), 0, 0⟩ ≠ 0
      ∧ (point 32 32 32 : Vector3 ℝ).distanceTo Real.sqrt ⟨(2 : ℝ) ^ (-60 : Int), 0, 0⟩ ≠ 0 := by
  obtain ⟨hd, _, ht⟩ := b64_small_offset
  rw [point_mid]
  refine ⟨rfl, ht, hd, ?_, ?_⟩
  · rw [hd]
    positivity
  · simp only [Vector3.distanceTo, Vector3.distanceToSquared]
    rw [Ne, Real.sqrt_eq_zero (by positivity)]
    norm_num

/-- C8. The dose field does not depend on the beam intensity.  In any state, after the
intensity controller has set any value `v` (0, or anything in `[0, 2]`, included), the grid
generated from the tumor position and the beam list is the grid generated before; in every
reachable state the texture in use is left as it was; and the value reaches the colour
of the beam arrows, which becomes `(1, 1, 0)` times `v`. -/
theorem C8_intensity_not_in_dose (s : App ℝ) (es : List (Event ℝ)) (v : ℝ) :
    data Real.sqrt (App.step Real.sqrt s (.intensity v)).tumorPosition
        (App.step Real.sqrt s (.intensity v)).beamPositions
        = data Real.sqrt s.tumorPosition s.beamPositions
      ∧ (App.run Real.sqrt (es ++ [.intensity v])).data = (App.run Real.sqrt es).data
      ∧ (App.step Real.sqrt s (.intensity v)).beamColor = (Color.mk 1 1 0).multiplyScalar v
      ∧ (App.step Real.sqrt s (.intensity v)).beamColor = ⟨v, v, 0⟩ := by
  have hprops : (App.step Real.sqrt s (.intensity v)).tumorPosition = s.tumorPosition
      ∧ (App.step Real.sqrt s (.intensity v)).beamPositions = s.beamPositions
      ∧ (App.step Real.sqrt s (.intensity v)).beamIntensity = v := by
    simp only [App.step, App.runEffect]
    split <;> simp
  obtain ⟨h1, h2, h3⟩ := hprops
  refine ⟨by rw [h1, h2], ?_, ?_, ?_⟩
  · rw [(run_invariant Real.sqrt (es ++ [Event.intensity v])).2.2.2.2,
      (run_invariant Real.sqrt es).2.2.2.2]
  · simp [App.beamColor, RadiationBeam.color, h3]
  · simp [App.beamColor, RadiationBeam.color, Color.multiplyScalar, h3]

/-- The centre cell `(32, 32, 32)` with the two initial beams: sample 255 with the tumor at
the origin, sample 49 with the tumor at `(1, 0, 0)`. -/
theorem centre_samples :
    sample Real.sqrt ⟨0, 0, 0⟩ [⟨1, 1, 1⟩, ⟨-1, -1, -1⟩] 32 32 32 = 255
      ∧ sample Real.sqrt ⟨1, 0, 0⟩ [⟨1, 1, 1⟩, ⟨-1, -1, -1⟩] 32 32 32 = 49 := by
  obtain ⟨hlo, hhi⟩ := sqrt_three_bounds
  have hpos : (0 : ℝ) < 1 + Real.sqrt 3 * 5 := by linarith
  have hb0 : (0 : ℝ) < 1 / (1 + Real.sqrt 3 * 5) := by positivity
  have hb1 : (1 : ℝ) / (1 + Real.sqrt 3 * 5) < 0.1036 := by
    rw [div_lt_iff₀ hpos]
    linarith
  have hb2 : (0.1034 : ℝ) < 1 / (1 + Real.sqrt 3 * 5) := by
    rw [lt_div_iff₀ hpos]
    linarith
  constructor
  · have hd : dose Real.sqrt ⟨0, 0, 0⟩ [⟨1, 1, 1⟩, ⟨-1, -1, -1⟩] (point 32 32 32)
        = 1 + 1 / (1 + Real.sqrt 3 * 5) := by
      rw [point_mid]
      simp only [dose, tumorTerm, beamTerm, Vector3.distanceTo, Vector3.distanceToSquared,
        List.foldl_cons, List.foldl_nil]
      norm_num
      ring
    unfold sample quantize
    rw [hd]
    apply min_eq_left
    apply Int.le_floor.mpr
    push_cast
    linarith
  · have hd : dose Real.sqrt ⟨1, 0, 0⟩ [⟨1, 1, 1⟩, ⟨-1, -1, -1⟩] (point 32 32 32)
        = 1 / 11 + 1 / (1 + Real.sqrt 3 * 5) := by
      rw [point_mid]
      simp only [dose, tumorTerm, beamTerm, Vector3.distanceTo, Vector3.distanceToSquared,
        List.foldl_cons, List.foldl_nil]
      norm_num
      ring
    unfold sample quantize
    rw [hd]
    have hfloor : ⌊(1 / 11 + 1 / (1 + Real.sqrt 3 * 5)) * 255⌋ = 49 := by
      rw [Int.floor_eq_iff]
      constructor
      · push_cast
        linarith
      · push_cast
        linarith
    rw [hfloor]
    rfl

/-- C9 fails in the code: the dose field is computed once, when the application is
mounted, and never again.  After any sequence of events the texture in use is the grid of
the initial tumor position `(0, 0, 0)`.  After the `x` controller has written 1 (and a
render has followed), the tumor is at `(1, 0, 0)`, the byte in use for the cell
`(32, 32, 32)` is still 255, and the grid generated from the current tumor position and
beam list has 49 there. -/
theorem C9_dose_field_never_recomputed :
    (∀ es : List (Event ℝ),
        (App.run Real.sqrt es).data = data Real.sqrt ⟨0, 0, 0⟩ [⟨1, 1, 1⟩, ⟨-1, -1, -1⟩])
      ∧ (App.run Real.sqrt [Event.tumorX 1, Event.render]).tumorPosition = ⟨1, 0, 0⟩
      ∧ (App.run Real.sqrt [Event.tumorX 1, Event.render]).data[index 32 32 32]? = some 255
      ∧ (data Real.sqrt (App.run Real.sqrt [Event.tumorX 1, Event.render]).tumorPosition
          (App.run Real.sqrt [Event.tumorX 1, Event.render]).beamPositions)[index 32 32 32]?
          = some 49
      ∧ (App.run Real.sqrt [Event.tumorX 1, Event.render]).data
          ≠ data Real.sqrt (App.run Real.sqrt [Event.tumorX 1, Event.render]).tumorPosition
              (App.run Real.sqrt [Event.tumorX 1, Event.render]).beamPositions := by
  have hinv := fun es : List (Event ℝ) => (run_invariant Real.sqrt es).2.2.2.2
  have hbs := (run_invariant Real.sqrt [Event.tumorX 1, Event.render]).2.2.2.1
  have ht : (App.run Real.sqrt [Event.tumorX 1, Event.render]).tumorPosition = ⟨1, 0, 0⟩ := by
    simp [App.run, App.step, App.init, App.runEffect]
  have h32 : (32 : Nat) < size := by decide
  have hold : (App.run Real.sqrt [Event.tumorX 1, Event.render]).data[index 32 32 32]?
      = some 255 := by
    rw [hinv, data_getElem? Real.sqrt _ _ 32 32 32 h32 h32 h32, centre_samples.1]
    rfl
  have hnew : (data Real.sqrt (App.run Real.sqrt [Event.tumorX 1, Event.render]).tumorPosition
      (App.run Real.sqrt [Event.tumorX 1, Event.render]).beamPositions)[index 32 32 32]?
      = some 49 := by
    rw [ht, hbs, data_getElem? Real.sqrt _ _ 32 32 32 h32 h32 h32, centre_samples.2]
    rfl
  refine ⟨hinv, ht, hold, hnew, ?_⟩
  intro h
  rw [h, hnew] at hold
  exact absurd hold (by decide)

/-- C10. The linearisation `index i j k = i * 64 * 64 + j * 64 + k` maps the triples with
`i, j, k < 64` one-to-one onto `0 .. 64³ - 1`: every index is below the array length
`64 * 64 * 64`, different triples have different indices, every position of the array is
the index of a triple; the loop writes the positions `0, 1, …, 64³ - 1` in this order, so
each position exactly once. -/
theorem C10_index_bijection :
    (∀ i j k : Nat, i < size → j < size → k < size → index i j k < size * size * size)
      ∧ (∀ i j k i' j' k' : Nat, i < size → j < size → k < size →
          i' < size → j' < size → k' < size →
          index i j k = index i' j' k' → i = i' ∧ j = j' ∧ k = k')
      ∧ (∀ n : Nat, n < size * size * size →
          ∃ i j k : Nat, i < size ∧ j < size ∧ k < size ∧ index i j k = n)
      ∧ writes = List.range (size * size * size)
      ∧ (∀ n : Nat, n < size * size * size → writes.count n = 1)
      ∧ (∀ n ∈ writes, n < (List.replicate (size * size * size) (0 : Nat)).length)
      ∧ size * size * size = 262144 := by
  refine ⟨index_lt, ?_, ?_, writes_eq_range, ?_, ?_, by decide⟩
  · intro i j k i' j' k' hi hj hk hi' hj' hk' h
    unfold index size at *
    omega
  · intro n hn
    simp only [index, size] at *
    exact ⟨n / (64 * 64), n / 64 % 64, n % 64, by omega, by omega, by omega, by omega⟩
  · intro n hn
    rw [writes_eq_range]
    exact List.count_eq_one_of_mem (List.nodup_range _) (List.mem_range.mpr hn)
  · intro n hn
    rw [writes_eq_range] at hn
    rw [List.length_replicate]
    exact List.mem_range.mp hn

end Claims

end RadiotherapySim
